import Mathlib

/-!
Verification of the RandomASCII pipeline (build_db.py, add_dimensions.py,
random_ascii.py) against its natural-language specification.

Python strings are modelled as lists of characters (`PyStr`), SQLite tables as
Lean lists, and code that can raise a caught exception as `Option`-returning
functions.  Every definition below is a direct translation of the named source
lines; theorems about the specification's claims follow the definitions.
-/

/-- Python strings, modelled as lists of characters. -/
abbrev PyStr := List Char

/-- Characters removed by Python `str.strip()` with no argument (ASCII whitespace). -/
def isPySpace (c : Char) : Bool :=
  c = ' ' || c = '\t' || c = '\n' || c = '\r' || c = '\x0b' || c = '\x0c'

/-- Python `s.lstrip()`: drop leading whitespace. -/
def pyLstrip (l : PyStr) : PyStr := l.dropWhile isPySpace

/-- Python `s.rstrip()`: drop trailing whitespace. -/
def pyRstrip : PyStr → PyStr
  | [] => []
  | c :: cs =>
    let r := pyRstrip cs
    if r.isEmpty then (if isPySpace c then [] else [c]) else c :: r

/-- Python `s.strip()`. -/
def pyStrip (l : PyStr) : PyStr := pyRstrip (pyLstrip l)

/-- Python `s.split(sep)` for a one-character separator: split at every
occurrence, keeping empty pieces; the result is always nonempty. -/
def splitOnChar (sep : Char) : PyStr → List PyStr
  | [] => [[]]
  | c :: cs =>
    match splitOnChar sep cs with
    | [] => [[]]
    | p :: ps => if c = sep then [] :: p :: ps else (c :: p) :: ps

/-- Numeric value of a string of decimal digits. -/
def digitsVal (l : PyStr) : Nat := l.foldl (fun acc c => 10 * acc + (c.toNat - 48)) 0

/-- Value of a nonempty all-digit string; `none` otherwise. -/
def digitsVal? (l : PyStr) : Option Nat :=
  if l ≠ [] ∧ l.all Char.isDigit then some (digitsVal l) else none

/-- Python `int(s)` on an already-stripped string: an optional sign directly
followed by a nonempty run of decimal digits; anything else raises
`ValueError`, modelled as `none`. -/
def pyIntCore : PyStr → Option Int
  | [] => none
  | c :: cs =>
    if c = '+' then (digitsVal? cs).map (fun n => (n : Int))
    else if c = '-' then (digitsVal? cs).map (fun n => -(n : Int))
    else (digitsVal? (c :: cs)).map (fun n => (n : Int))

/-- Python `int(s)`: surrounding whitespace is ignored. -/
def pyInt? (l : PyStr) : Option Int := pyIntCore (pyStrip l)

/-- Dimension parsing from `add_dimensions.py` lines 113-125:
`dims = dimensions_text.split(':')[1].strip(); width, height = dims.split('x');
width = int(width.strip()); height = int(height.strip())`, with
`ValueError`/`IndexError` caught (the record is skipped), modelled as `none`. -/
def parse_dimensions (l : PyStr) : Option (Int × Int) :=
  match (splitOnChar ':' l).drop 1 with
  | [] => none
  | part :: _ =>
    match splitOnChar 'x' (pyStrip part) with
    | [w, h] =>
      match pyInt? (pyStrip w), pyInt? (pyStrip h) with
      | some wi, some hi => some (wi, hi)
      | _, _ => none
    | _ => none

/-- The ANSI color table `COLORS` of `random_ascii.py` lines 17-26, as an
association list in dict insertion order. -/
def COLORS : List (PyStr × PyStr) :=
  [("red".toList, "\x1b[91m".toList),
   ("green".toList, "\x1b[92m".toList),
   ("yellow".toList, "\x1b[93m".toList),
   ("blue".toList, "\x1b[94m".toList),
   ("magenta".toList, "\x1b[95m".toList),
   ("cyan".toList, "\x1b[96m".toList),
   ("white".toList, "\x1b[97m".toList),
   ("reset".toList, "\x1b[0m".toList)]

/-- Python `s.lower()` (ASCII case folding). -/
def pyLower (s : PyStr) : PyStr := s.map Char.toLower

/-- Python substring test `needle in hay`. -/
def pyContains (hay needle : PyStr) : Bool :=
  hay.tails.any (fun t => needle.isPrefixOf t)

/-- `colorize_artwork` from `random_ascii.py` lines 107-135.  Returns `none`
exactly where Python raises `ZeroDivisionError`: when `lines_per_color`
(= line count integer-divided by valid color count) is zero and the per-line
division `i // lines_per_color` is reached. -/
def colorize_artwork (artwork : PyStr) (color_names : List PyStr) : Option PyStr :=
  if color_names.isEmpty then some artwork else
  let valid_colors := color_names.filter (fun c => (List.lookup (pyLower c) COLORS).isSome)
  if valid_colors.isEmpty then some artwork else
  let lines := splitOnChar '\n' artwork
  let total_lines := lines.length
  let lines_per_color := total_lines / valid_colors.length
  if lines_per_color = 0 then none else
  let reset := (List.lookup ("reset".toList) COLORS).getD []
  let colored_lines := lines.enum.map (fun p =>
    let color_index := min (p.1 / lines_per_color) (valid_colors.length - 1)
    let code := (List.lookup (pyLower (valid_colors.getD color_index [])) COLORS).getD []
    code ++ p.2 ++ reset)
  some (List.intercalate ('\n' :: []) colored_lines)

/-- `find_category` from `random_ascii.py` lines 74-104.  First component:
the returned pair, with Python's `(None, None)` modelled as `none`.  Second
component: the candidate names printed to stderr in the ambiguous case. -/
def find_category (categories : List (PyStr × Nat)) (search_term : PyStr) :
    Option (PyStr × Nat) × List PyStr :=
  let search_lower := pyLower search_term
  match categories.find? (fun p => pyLower p.1 == search_lower) with
  | some p => (some p, [])
  | none =>
    match categories.filter (fun p => pyContains (pyLower p.1) search_lower) with
    | [m] => (some m, [])
    | [] => (none, [])
    | ms => (none, ms.map Prod.fst)

/-- Category selection with a filter in `main` (`random_ascii.py` lines
210-218): when `find_category` yields a falsy id (`None`, or the integer 0),
fall back to the `r`-th category, `r` being the index produced by
`random.choice` over the category list. -/
def resolve_category_filter (categories : List (PyStr × Nat)) (search_term : PyStr)
    (r : Nat) : PyStr × Nat :=
  match (find_category categories search_term).1 with
  | some p => if p.2 = 0 then categories.getD r ([], 0) else p
  | none => categories.getD r ([], 0)

/-- Category label normalization from `build_db.py` lines 66-68 and
`add_dimensions.py` lines 58-60:
`if '(' in name: name = name.split('(')[0].strip()`. -/
def normalize_category_name (label : PyStr) : PyStr :=
  if '(' ∈ label then pyStrip ((splitOnChar '(' label).headD []) else label

/-- A row of the `artworks` table (`build_db.py` lines 30-37; the dimension
columns are added by `add_dimensions.py` lines 18-36 and are null until
reconciled). -/
structure ArtworkRow where
  id : Nat
  category_id : Nat
  artwork : PyStr
  width : Option Int
  height : Option Int
deriving DecidableEq

/-- The SQLite store: `categories(id, name UNIQUE)` rows, `artworks` rows, and
the AUTOINCREMENT counters for the two primary keys. -/
structure DB where
  categories : List (Nat × PyStr)
  artworks : List ArtworkRow
  nextCategoryId : Nat
  nextArtworkId : Nat
deriving DecidableEq

/-- `INSERT OR IGNORE INTO categories (name) VALUES (?)` followed by
`SELECT id FROM categories WHERE name = ?` (`build_db.py` lines 113-115). -/
def ensureCategory (db : DB) (name : PyStr) : Nat × DB :=
  match db.categories.find? (fun p => p.2 == name) with
  | some p => (p.1, db)
  | none =>
    (db.nextCategoryId,
     { db with categories := db.categories ++ [(db.nextCategoryId, name)],
               nextCategoryId := db.nextCategoryId + 1 })

/-- `INSERT INTO artworks (category_id, artwork) VALUES (?, ?)`
(`build_db.py` lines 122-126): a fresh row with null dimensions. -/
def insertArtwork (db : DB) (categoryId : Nat) (text : PyStr) : DB :=
  { db with artworks := db.artworks ++ [⟨db.nextArtworkId, categoryId, text, none, none⟩],
            nextArtworkId := db.nextArtworkId + 1 }

/-- `SELECT id FROM artworks WHERE artwork = ? LIMIT 1`
(`add_dimensions.py` lines 153-157): the first row in insertion order whose
text is byte-for-byte equal to the probe. -/
def findArtworkIdByText (db : DB) (text : PyStr) : Option Nat :=
  (db.artworks.find? (fun a => a.artwork == text)).map ArtworkRow.id

/-- `UPDATE artworks SET width = ?, height = ? WHERE id = ?`
(`add_dimensions.py` lines 161-164). -/
def updateArtworkDims (db : DB) (i : Nat) (w h : Int) : DB :=
  { db with artworks := db.artworks.map (fun a =>
      if a.id = i then { a with width := some w, height := some h } else a) }

/-- One iteration of the reconciliation inner loop (`add_dimensions.py` lines
151-169): look the scraped text up, update on a hit, bump the not-found
counter on a miss.  The accumulator is `(db, total_updated, total_not_found)`. -/
def applyTriple (acc : DB × Nat × Nat) (t : PyStr × Int × Int) : DB × Nat × Nat :=
  match findArtworkIdByText acc.1 t.1 with
  | some i => (updateArtworkDims acc.1 i t.2.1 t.2.2, acc.2.1 + 1, acc.2.2)
  | none => (acc.1, acc.2.1, acc.2.2 + 1)

/-- Reconciliation of one category page against the store
(`add_dimensions.py` lines 140-171), starting from zeroed counters. -/
def runReconcile (db : DB) (triples : List (PyStr × Int × Int)) : DB × Nat × Nat :=
  triples.foldl applyTriple (db, 0, 0)

/-- Ingestion of one category (`build_db.py` lines 109-129): ensure the
category row exists, then append one artwork row per scraped text. -/
def ingestCategory (db : DB) (name : PyStr) (texts : List PyStr) : DB :=
  let p := ensureCategory db name
  texts.foldl (fun d t => insertArtwork d p.1 t) p.2

/-- The store-mutating operations of the tool suite.  The retrieval tool
(`random_ascii.py`) only issues `SELECT`s, modelled as the pure query
functions above, so it contributes no mutating operation. -/
inductive StoreOp where
  | ingest (name : PyStr) (texts : List PyStr)
  | reconcile (triples : List (PyStr × Int × Int))

/-- Effect of one operation on the store. -/
def applyOp (db : DB) : StoreOp → DB
  | .ingest name texts => ingestCategory db name texts
  | .reconcile triples => (runReconcile db triples).1

/-- Effect of a whole run of operations on the store. -/
def applyOps (db : DB) (ops : List StoreOp) : DB := ops.foldl applyOp db

/-- Referential integrity: every artwork row's `category_id` names an existing
category row. -/
def RefIntegrity (db : DB) : Prop :=
  ∀ a ∈ db.artworks, ∃ c ∈ db.categories, c.1 = a.category_id

/-- Python `try`/`finally` semantics for exit codes: a `sys.exit` executed in
the `finally` block replaces whatever `SystemExit` was pending from the `try`
body; with no pending exit and no exit in `finally`, execution continues
normally (exit 0 at end of `main`). -/
def tryFinallyExitCode (pendingExit : Option Nat) (finallyExit : Option Nat) : Nat :=
  match finallyExit with
  | some code => code
  | none => pendingExit.getD 0

/-- The `SystemExit` pending when control leaves the `try` body of `main`
(`random_ascii.py` lines 221-274), for a single non-looping display iteration:
`sys.exit(1)` is requested when the selected category has no artworks and
`--loop` is off; a `KeyboardInterrupt` is caught by the `except` clause and
leaves no pending exit. -/
def tryBodyPendingExit (loopFlag : Bool) (selectedArtworks : List PyStr)
    (interrupted : Bool) : Option Nat :=
  if interrupted then none
  else if selectedArtworks.isEmpty && !loopFlag then some 1
  else none

/-- Exit status of the retrieval CLI (`random_ascii.py` `main`, lines 138-277):
missing database file and empty category table exit before the `try` block;
every path that reaches the `try` block runs the `finally` block, whose
unconditional `sys.exit(0)` (line 277) determines the final status. -/
def cliExitCode (dbExists : Bool) (categories : List (PyStr × Nat))
    (listFlag loopFlag : Bool) (selectedArtworks : List PyStr)
    (interrupted : Bool) : Nat :=
  if !dbExists then 1
  else if categories.isEmpty then 1
  else if listFlag then 0
  else tryFinallyExitCode (tryBodyPendingExit loopFlag selectedArtworks interrupted) (some 0)

/-- A split result is never the empty list. -/
theorem splitOnChar_ne_nil (sep : Char) (l : PyStr) : splitOnChar sep l ≠ [] := by
  cases l with
  | nil => simp [splitOnChar]
  | cons c cs =>
    rw [splitOnChar]
    cases hs : splitOnChar sep cs with
    | nil => simp
    | cons p ps => by_cases hc : c = sep <;> simp [hc]

/-- Splitting a separator-free string yields that string as the only piece. -/
theorem splitOnChar_of_not_mem {sep : Char} {l : PyStr} (h : sep ∉ l) :
    splitOnChar sep l = [l] := by
  induction l with
  | nil => rfl
  | cons c cs ih =>
    have hc : c ≠ sep := fun e => h (e ▸ List.mem_cons_self c cs)
    have hcs : sep ∉ cs := fun m => h (List.mem_cons_of_mem _ m)
    rw [splitOnChar, ih hcs]
    simp [hc]

/-- Splitting at the first separator occurrence peels off the prefix. -/
theorem splitOnChar_append_sep {sep : Char} (a b : PyStr) (h : sep ∉ a) :
    splitOnChar sep (a ++ sep :: b) = a :: splitOnChar sep b := by
  induction a with
  | nil =>
    rw [List.nil_append, splitOnChar]
    cases hs : splitOnChar sep b with
    | nil => exact absurd hs (splitOnChar_ne_nil sep b)
    | cons p ps => simp
  | cons c a' ih =>
    have hc : c ≠ sep := fun e => h (e ▸ List.mem_cons_self c a')
    have ha' : sep ∉ a' := fun m => h (List.mem_cons_of_mem _ m)
    rw [List.cons_append, splitOnChar, ih ha']
    simp [hc]

/-- Every character of a split piece occurs in the original string. -/
theorem mem_of_mem_splitOnChar {sep : Char} {l p : PyStr} {c : Char}
    (hp : p ∈ splitOnChar sep l) (hc : c ∈ p) : c ∈ l := by
  induction l generalizing p with
  | nil =>
    simp [splitOnChar] at hp
    subst hp
    simp at hc
  | cons d ds ih =>
    rw [splitOnChar] at hp
    cases hs : splitOnChar sep ds with
    | nil => exact absurd hs (splitOnChar_ne_nil sep ds)
    | cons q qs =>
      rw [hs] at hp
      by_cases hd : d = sep
      · simp only [hd, if_pos rfl] at hp
        rcases List.mem_cons.mp hp with h1 | h2
        · subst h1; simp at hc
        · exact List.mem_cons_of_mem _ (ih (hs ▸ h2) hc)
      · simp only [if_neg hd] at hp
        rcases List.mem_cons.mp hp with h1 | h2
        · subst h1
          rcases List.mem_cons.mp hc with h3 | h4
          · exact h3 ▸ List.mem_cons_self d ds
          · exact List.mem_cons_of_mem _ (ih (hs ▸ List.mem_cons_self q qs) h4)
        · exact List.mem_cons_of_mem _ (ih (hs ▸ List.mem_cons_of_mem _ h2) hc)

/-- No split piece contains the separator. -/
theorem sep_not_mem_of_mem_splitOnChar {sep : Char} {l p : PyStr}
    (hp : p ∈ splitOnChar sep l) : sep ∉ p := by
  induction l generalizing p with
  | nil =>
    simp [splitOnChar] at hp
    subst hp
    simp
  | cons d ds ih =>
    rw [splitOnChar] at hp
    cases hs : splitOnChar sep ds with
    | nil => exact absurd hs (splitOnChar_ne_nil sep ds)
    | cons q qs =>
      rw [hs] at hp
      by_cases hd : d = sep
      · simp only [hd, if_pos rfl] at hp
        rcases List.mem_cons.mp hp with h1 | h2
        · subst h1; simp
        · exact ih (hs ▸ h2)
      · simp only [if_neg hd] at hp
        rcases List.mem_cons.mp hp with h1 | h2
        · subst h1
          intro hmem
          rcases List.mem_cons.mp hmem with h3 | h4
          · exact hd h3.symm
          · exact ih (hs ▸ List.mem_cons_self q qs) h4
        · exact ih (hs ▸ List.mem_cons_of_mem _ h2)

/-- Unfolding equation for `pyRstrip` on a cons cell. -/
theorem pyRstrip_cons (c : Char) (cs : PyStr) :
    pyRstrip (c :: cs) =
      if (pyRstrip cs).isEmpty then (if isPySpace c then [] else [c])
      else c :: pyRstrip cs := rfl

/-- Dropping a leading space commutes into `pyLstrip`. -/
theorem pyLstrip_cons_space {c : Char} (h : isPySpace c = true) (l : PyStr) :
    pyLstrip (c :: l) = pyLstrip l := by
  simp [pyLstrip, List.dropWhile_cons, h]

/-- A non-space head is kept by `pyLstrip`. -/
theorem pyLstrip_cons_not_space {c : Char} (h : isPySpace c = false) (l : PyStr) :
    pyLstrip (c :: l) = c :: l := by
  simp [pyLstrip, List.dropWhile_cons, h]

/-- A non-space head passes through `pyRstrip`. -/
theorem pyRstrip_cons_not_space {c : Char} (h : isPySpace c = false) (l : PyStr) :
    pyRstrip (c :: l) = c :: pyRstrip l := by
  rw [pyRstrip_cons]
  cases hr : pyRstrip l <;> simp [h]

/-- `pyRstrip` erases the whole string exactly when it is all whitespace. -/
theorem pyRstrip_eq_nil_iff {l : PyStr} :
    pyRstrip l = [] ↔ ∀ c ∈ l, isPySpace c = true := by
  induction l with
  | nil => simp [pyRstrip]
  | cons c cs ih =>
    rw [pyRstrip_cons]
    cases hr : pyRstrip cs with
    | nil =>
      have hall := ih.mp hr
      by_cases hc : isPySpace c = true
      · simp only [List.isEmpty_nil, if_true, hc, List.forall_mem_cons, true_and]
        simp only [true_iff]
        exact hall
      · rw [Bool.not_eq_true] at hc
        simp [hc, hall]
    | cons q qs =>
      simp only [List.isEmpty_cons, if_false, Bool.false_eq_true]
      constructor
      · intro h; cases h
      · intro h
        have : pyRstrip cs = [] := ih.mpr (fun d hd => h d (List.mem_cons_of_mem _ hd))
        rw [hr] at this
        cases this

/-- `pyLstrip` erases the whole string exactly when it is all whitespace. -/
theorem pyLstrip_eq_nil_iff {l : PyStr} :
    pyLstrip l = [] ↔ ∀ c ∈ l, isPySpace c = true :=
  List.dropWhile_eq_nil_iff

/-- `pyRstrip` only acts on the right summand when that keeps a character. -/
theorem pyRstrip_append_not_nil {u v : PyStr} (h : pyRstrip v ≠ []) :
    pyRstrip (u ++ v) = u ++ pyRstrip v := by
  induction u with
  | nil => simp
  | cons c u' ih =>
    rw [List.cons_append, pyRstrip_cons, ih]
    have hne : (u' ++ pyRstrip v).isEmpty = false := by
      simp [List.isEmpty_iff, h]
    simp [hne]

/-- Appending a trailing space does not change `pyRstrip`. -/
theorem pyRstrip_append_space {c : Char} (h : isPySpace c = true) (u : PyStr) :
    pyRstrip (u ++ [c]) = pyRstrip u := by
  induction u with
  | nil => simp [pyRstrip_cons, pyRstrip, h]
  | cons d u' ih =>
    rw [List.cons_append, pyRstrip_cons, ih, pyRstrip_cons]

/-- `pyLstrip` is idempotent. -/
theorem pyLstrip_idem (l : PyStr) : pyLstrip (pyLstrip l) = pyLstrip l := by
  induction l with
  | nil => rfl
  | cons c cs ih =>
    by_cases hc : isPySpace c = true
    · rw [pyLstrip_cons_space hc, ih]
    · rw [Bool.not_eq_true] at hc
      rw [pyLstrip_cons_not_space hc, pyLstrip_cons_not_space hc]

/-- `pyRstrip` is idempotent. -/
theorem pyRstrip_idem (l : PyStr) : pyRstrip (pyRstrip l) = pyRstrip l := by
  induction l with
  | nil => rfl
  | cons c cs ih =>
    rw [pyRstrip_cons]
    cases hr : pyRstrip cs with
    | nil =>
      by_cases hc : isPySpace c = true
      · simp [hc, pyRstrip]
      · rw [Bool.not_eq_true] at hc
        simp only [List.isEmpty_nil, if_true, hc, Bool.false_eq_true, if_false]
        rw [pyRstrip_cons]
        simp [hc, pyRstrip]
    | cons q qs =>
      rw [hr] at ih
      simp only [List.isEmpty_cons, Bool.false_eq_true, if_false]
      rw [pyRstrip_cons, ih]
      simp

/-- Left and right stripping commute. -/
theorem pyLstrip_pyRstrip_comm (l : PyStr) :
    pyLstrip (pyRstrip l) = pyRstrip (pyLstrip l) := by
  induction l with
  | nil => rfl
  | cons c cs ih =>
    by_cases hc : isPySpace c = true
    · rw [pyLstrip_cons_space hc, pyRstrip_cons]
      cases hr : pyRstrip cs with
      | nil =>
        have hall := pyRstrip_eq_nil_iff.mp hr
        have hl : pyLstrip cs = [] := pyLstrip_eq_nil_iff.mpr hall
        rw [hl]
        simp [hc, pyRstrip, pyLstrip]
      | cons q qs =>
        simp only [List.isEmpty_nil, List.isEmpty_cons, Bool.false_eq_true, if_false]
        rw [pyLstrip_cons_space hc, ← hr, ih]
    · rw [Bool.not_eq_true] at hc
      rw [pyLstrip_cons_not_space hc, pyRstrip_cons]
      cases hr : pyRstrip cs with
      | nil =>
        simp only [List.isEmpty_nil, if_true, hc, Bool.false_eq_true, if_false]
        rw [pyLstrip_cons_not_space hc]
      | cons q qs =>
        simp only [List.isEmpty_cons, Bool.false_eq_true, if_false]
        rw [pyLstrip_cons_not_space hc]

/-- Stripping after `pyLstrip` is plain stripping. -/
theorem pyStrip_pyLstrip (l : PyStr) : pyStrip (pyLstrip l) = pyStrip l := by
  rw [pyStrip, pyStrip, pyLstrip_idem]

/-- Stripping after `pyRstrip` is plain stripping. -/
theorem pyStrip_pyRstrip (l : PyStr) : pyStrip (pyRstrip l) = pyStrip l := by
  rw [pyStrip, pyLstrip_pyRstrip_comm, pyRstrip_idem, pyStrip]

/-- `pyStrip` is idempotent. -/
theorem pyStrip_idem (l : PyStr) : pyStrip (pyStrip l) = pyStrip l :=
  (pyStrip_pyRstrip (pyLstrip l)).trans (pyStrip_pyLstrip l)

/-- A leading space does not change `pyStrip`. -/
theorem pyStrip_cons_space {c : Char} (h : isPySpace c = true) (l : PyStr) :
    pyStrip (c :: l) = pyStrip l := by
  rw [pyStrip, pyLstrip_cons_space h, pyStrip]

/-- Characters of `pyLstrip l` come from `l`. -/
theorem mem_of_mem_pyLstrip {c : Char} {l : PyStr} (h : c ∈ pyLstrip l) : c ∈ l := by
  induction l with
  | nil => simp [pyLstrip] at h
  | cons d ds ih =>
    by_cases hd : isPySpace d = true
    · rw [pyLstrip_cons_space hd] at h
      exact List.mem_cons_of_mem _ (ih h)
    · rw [Bool.not_eq_true] at hd
      rwa [pyLstrip_cons_not_space hd] at h

/-- Characters of `pyRstrip l` come from `l`. -/
theorem mem_of_mem_pyRstrip {c : Char} {l : PyStr} (h : c ∈ pyRstrip l) : c ∈ l := by
  induction l with
  | nil => simp [pyRstrip] at h
  | cons d ds ih =>
    rw [pyRstrip_cons] at h
    cases hr : pyRstrip ds with
    | nil =>
      rw [hr] at h
      by_cases hd : isPySpace d = true
      · simp [hd] at h
      · rw [Bool.not_eq_true] at hd
        simp [hd] at h
        exact h ▸ List.mem_cons_self d ds
    | cons q qs =>
      rw [hr] at h
      simp only [List.isEmpty_cons, Bool.false_eq_true, if_false] at h
      rcases List.mem_cons.mp h with h1 | h2
      · exact h1 ▸ List.mem_cons_self d ds
      · exact List.mem_cons_of_mem _ (ih (hr ▸ h2))

/-- Characters of `pyStrip l` come from `l`. -/
theorem mem_of_mem_pyStrip {c : Char} {l : PyStr} (h : c ∈ pyStrip l) : c ∈ l := by
  rw [pyStrip] at h
  exact mem_of_mem_pyLstrip (mem_of_mem_pyRstrip h)

/-- A string with no whitespace is fixed by `pyLstrip`. -/
theorem pyLstrip_eq_self {l : PyStr} (h : ∀ c ∈ l, isPySpace c = false) :
    pyLstrip l = l := by
  cases l with
  | nil => rfl
  | cons c cs => exact pyLstrip_cons_not_space (h c (List.mem_cons_self c cs)) cs

/-- A string with no whitespace is fixed by `pyRstrip`. -/
theorem pyRstrip_eq_self {l : PyStr} (h : ∀ c ∈ l, isPySpace c = false) :
    pyRstrip l = l := by
  induction l with
  | nil => rfl
  | cons c cs ih =>
    rw [pyRstrip_cons_not_space (h c (List.mem_cons_self c cs)),
        ih (fun d hd => h d (List.mem_cons_of_mem _ hd))]

/-- A string with no whitespace is fixed by `pyStrip`. -/
theorem pyStrip_eq_self {l : PyStr} (h : ∀ c ∈ l, isPySpace c = false) :
    pyStrip l = l := by
  rw [pyStrip, pyLstrip_eq_self h, pyRstrip_eq_self h]

/-- `pyLstrip` distributes over an append whose right part has a non-space head. -/
theorem pyLstrip_append_cons {c : Char} (h : isPySpace c = false) (a b : PyStr) :
    pyLstrip (a ++ c :: b) = pyLstrip a ++ c :: b := by
  rw [pyLstrip, List.dropWhile_append]
  by_cases he : (List.dropWhile isPySpace a).isEmpty = true
  · rw [if_pos he]
    have : pyLstrip a = [] := List.isEmpty_iff.mp he
    rw [this, List.nil_append, ← pyLstrip, pyLstrip_cons_not_space h]
  · rw [if_neg he]
    rfl

/-- `pyLstrip` distributes over an append whose left part keeps a character. -/
theorem pyLstrip_append_of_ne_nil {a : PyStr} (h : pyLstrip a ≠ []) (b : PyStr) :
    pyLstrip (a ++ b) = pyLstrip a ++ b := by
  rw [pyLstrip, List.dropWhile_append, if_neg]
  · rfl
  · simp only [List.isEmpty_iff]
    exact h

/-- A decimal digit is not whitespace. -/
theorem not_space_of_isDigit {c : Char} (h : c.isDigit = true) : isPySpace c = false := by
  by_contra hne
  rw [Bool.not_eq_false] at hne
  simp only [isPySpace, Bool.or_eq_true, decide_eq_true_eq] at hne
  rcases hne with ((((h1 | h2) | h3) | h4) | h5) | h6 <;> subst_vars <;>
    exact absurd h (by decide)

/-- A decimal digit differs from any non-digit character. -/
theorem ne_of_isDigit {c d : Char} (h : c.isDigit = true) (hd : d.isDigit = false) :
    c ≠ d := by
  intro e
  rw [e, hd] at h
  cases h

/-- A non-digit character does not occur in an all-digit string. -/
theorem not_mem_of_all_digits {l : PyStr} (hl : ∀ c ∈ l, c.isDigit = true) {d : Char}
    (hd : d.isDigit = false) : d ∉ l := by
  intro hm
  rw [hl d hm] at hd
  cases hd

/-- Value of `digitsVal?` on a nonempty all-digit string. -/
theorem digitsVal?_eq_some {l : PyStr} (hne : l ≠ []) (hd : ∀ c ∈ l, c.isDigit = true) :
    digitsVal? l = some (digitsVal l) := by
  rw [digitsVal?, if_pos (And.intro hne (List.all_eq_true.mpr hd))]

/-- Value of `pyIntCore` on a nonempty all-digit string. -/
theorem pyIntCore_digits {l : PyStr} (hne : l ≠ []) (hd : ∀ c ∈ l, c.isDigit = true) :
    pyIntCore l = some ((digitsVal l : Int)) := by
  cases l with
  | nil => exact absurd rfl hne
  | cons c cs =>
    have hc := hd c (List.mem_cons_self c cs)
    have h1 : c ≠ '+' := ne_of_isDigit hc (by decide)
    have h2 : c ≠ '-' := ne_of_isDigit hc (by decide)
    simp [pyIntCore, h1, h2,
      digitsVal?_eq_some (List.cons_ne_nil c cs) hd]

/-- Value of Python `int` on a nonempty all-digit string. -/
theorem pyInt?_digits {l : PyStr} (hne : l ≠ []) (hd : ∀ c ∈ l, c.isDigit = true) :
    pyInt? l = some ((digitsVal l : Int)) := by
  rw [pyInt?, pyStrip_eq_self (fun c hc => not_space_of_isDigit (hd c hc))]
  exact pyIntCore_digits hne hd

/-- Reduction of `parse_dimensions` once the piece after the first colon is
known. -/
theorem parse_dimensions_eq_of_drop {l part : PyStr} {tail : List PyStr}
    (h : (splitOnChar ':' l).drop 1 = part :: tail) :
    parse_dimensions l =
      (match splitOnChar 'x' (pyStrip part) with
       | [w, hh] =>
         (match pyInt? (pyStrip w), pyInt? (pyStrip hh) with
          | some wi, some hi => some (wi, hi)
          | _, _ => none)
       | _ => none) := by
  simp only [parse_dimensions]
  rw [h]

/-- Claim C2: every well-formed label `"Dimensions: W x H"` with positive
integer numerals W and H parses to exactly `(W, H)`; a label whose part after
the colon contains no `x` separator parses to nothing; and a label
`"Dimensions: A x B"` whose tokens A, B are separator-free but not both integer
literals parses to nothing.  Totality (no unhandled error) is inherent:
`parse_dimensions` is a total function into `Option`. -/
theorem parse_dimensions_spec :
    (∀ ws hs : PyStr, ws ≠ [] → hs ≠ [] →
      (∀ c ∈ ws, c.isDigit = true) → (∀ c ∈ hs, c.isDigit = true) →
      0 < digitsVal ws → 0 < digitsVal hs →
      parse_dimensions (("Dimensions: ").toList ++ ws ++ (" x ").toList ++ hs)
        = some ((digitsVal ws : Int), (digitsVal hs : Int)))
  ∧ (∀ rest : PyStr, 'x' ∉ rest →
      parse_dimensions (("Dimensions:").toList ++ rest) = none)
  ∧ (∀ a b : PyStr, ':' ∉ a → ':' ∉ b → 'x' ∉ a → 'x' ∉ b →
      (pyInt? a = none ∨ pyInt? b = none) →
      parse_dimensions (("Dimensions: ").toList ++ a ++ ("x").toList ++ b) = none) := by
  refine ⟨?_, ?_, ?_⟩
  · intro ws hs hwne hhne hwd hhd _ _
    have hwns : ∀ c ∈ ws, isPySpace c = false :=
      fun c hc => not_space_of_isDigit (hwd c hc)
    have hhns : ∀ c ∈ hs, isPySpace c = false :=
      fun c hc => not_space_of_isDigit (hhd c hc)
    have hshape : ("Dimensions: ").toList ++ ws ++ (" x ").toList ++ hs
        = ("Dimensions").toList ++ ':' :: (' ' :: (ws ++ (' ' :: ('x' :: (' ' :: hs))))) := by
      have e : ("Dimensions: ").toList = ("Dimensions").toList ++ [':', ' '] := rfl
      have e2 : (" x ").toList = [' ', 'x', ' '] := rfl
      rw [e, e2]
      simp
    rw [hshape]
    have hA : (':' : Char) ∉ ("Dimensions").toList := by decide
    have hrest : (':' : Char) ∉ ' ' :: (ws ++ (' ' :: ('x' :: (' ' :: hs)))) := by
      intro hm
      simp only [List.mem_cons, List.mem_append] at hm
      rcases hm with h | h | h | h | h | h
      · exact absurd h (by decide)
      · exact absurd (hwd _ h) (by decide)
      · exact absurd h (by decide)
      · exact absurd h (by decide)
      · exact absurd h (by decide)
      · exact absurd (hhd _ h) (by decide)
    have hsplit : (splitOnChar ':'
        (("Dimensions").toList ++ ':' :: (' ' :: (ws ++ (' ' :: ('x' :: (' ' :: hs))))))).drop 1
        = [' ' :: (ws ++ (' ' :: ('x' :: (' ' :: hs))))] := by
      rw [splitOnChar_append_sep _ _ hA, splitOnChar_of_not_mem hrest]
      rfl
    have hWl : pyLstrip ws = ws := pyLstrip_eq_self hwns
    have hWlne : pyLstrip ws ≠ [] := by rw [hWl]; exact hwne
    have h1 : pyLstrip (ws ++ (' ' :: ('x' :: (' ' :: hs))))
        = ws ++ (' ' :: ('x' :: (' ' :: hs))) := by
      rw [pyLstrip_append_of_ne_nil hWlne, hWl]
    have hassoc : ws ++ (' ' :: ('x' :: (' ' :: hs))) = (ws ++ [' ', 'x', ' ']) ++ hs := by
      simp
    have hrshs : pyRstrip hs = hs := pyRstrip_eq_self hhns
    have hrshsne : pyRstrip hs ≠ [] := by rw [hrshs]; exact hhne
    have h2 : pyRstrip (ws ++ (' ' :: ('x' :: (' ' :: hs))))
        = ws ++ (' ' :: ('x' :: (' ' :: hs))) := by
      rw [hassoc, pyRstrip_append_not_nil hrshsne, hrshs, ← hassoc]
    have hstrip : pyStrip (' ' :: (ws ++ (' ' :: ('x' :: (' ' :: hs)))))
        = ws ++ (' ' :: ('x' :: (' ' :: hs))) := by
      rw [pyStrip_cons_space (by decide), pyStrip, h1, h2]
    have hassoc2 : ws ++ (' ' :: ('x' :: (' ' :: hs))) = (ws ++ [' ']) ++ 'x' :: (' ' :: hs) := by
      simp
    have hxW : ('x' : Char) ∉ ws ++ [' '] := by
      intro hm
      rcases List.mem_append.mp hm with h | h
      · exact absurd (hwd _ h) (by decide)
      · simp only [List.mem_singleton] at h
        exact absurd h (by decide)
    have hxR : ('x' : Char) ∉ ' ' :: hs := by
      intro hm
      rcases List.mem_cons.mp hm with h | h
      · exact absurd h (by decide)
      · exact absurd (hhd _ h) (by decide)
    have hstw : pyStrip (ws ++ [' ']) = ws := by
      rw [pyStrip, pyLstrip_append_of_ne_nil hWlne, hWl,
        pyRstrip_append_space (by decide), pyRstrip_eq_self hwns]
    have hsth : pyStrip (' ' :: hs) = hs := by
      rw [pyStrip_cons_space (by decide), pyStrip_eq_self hhns]
    have hstrip2 : pyStrip (' ' :: (ws ++ (' ' :: ('x' :: (' ' :: hs)))))
        = (ws ++ [' ']) ++ 'x' :: (' ' :: hs) := hstrip.trans hassoc2
    rw [parse_dimensions_eq_of_drop hsplit]
    simp only [hstrip2, splitOnChar_append_sep _ _ hxW, splitOnChar_of_not_mem hxR,
      hstw, hsth, pyInt?_digits hwne hwd, pyInt?_digits hhne hhd]
  · intro rest hx
    have hshape : ("Dimensions:").toList ++ rest = ("Dimensions").toList ++ ':' :: rest := by
      have e : ("Dimensions:").toList = ("Dimensions").toList ++ [':'] := rfl
      rw [e]
      simp
    rw [hshape]
    have hA : (':' : Char) ∉ ("Dimensions").toList := by decide
    cases hp : splitOnChar ':' rest with
    | nil => exact absurd hp (splitOnChar_ne_nil ':' rest)
    | cons p ps =>
      have hdrop : (splitOnChar ':' (("Dimensions").toList ++ ':' :: rest)).drop 1
          = p :: ps := by
        rw [splitOnChar_append_sep _ _ hA, hp]
        rfl
      have hpx : 'x' ∉ p :=
        fun hm => hx (mem_of_mem_splitOnChar (hp ▸ List.mem_cons_self p ps) hm)
      have hpsx : 'x' ∉ pyStrip p := fun hm => hpx (mem_of_mem_pyStrip hm)
      rw [parse_dimensions_eq_of_drop hdrop, splitOnChar_of_not_mem hpsx]
  · intro a b hca hcb hxa hxb hnone
    have hshape : ("Dimensions: ").toList ++ a ++ ("x").toList ++ b
        = ("Dimensions").toList ++ ':' :: (' ' :: (a ++ 'x' :: b)) := by
      have e : ("Dimensions: ").toList = ("Dimensions").toList ++ [':', ' '] := rfl
      have e2 : ("x").toList = ['x'] := rfl
      rw [e, e2]
      simp
    rw [hshape]
    have hA : (':' : Char) ∉ ("Dimensions").toList := by decide
    have hrest : (':' : Char) ∉ ' ' :: (a ++ 'x' :: b) := by
      intro hm
      simp only [List.mem_cons, List.mem_append] at hm
      rcases hm with h | h | h | h
      · exact absurd h (by decide)
      · exact hca h
      · exact absurd h (by decide)
      · exact hcb h
    have hsplit : (splitOnChar ':'
        (("Dimensions").toList ++ ':' :: (' ' :: (a ++ 'x' :: b)))).drop 1
        = [' ' :: (a ++ 'x' :: b)] := by
      rw [splitOnChar_append_sep _ _ hA, splitOnChar_of_not_mem hrest]
      rfl
    have hrb : pyRstrip ('x' :: b) = 'x' :: pyRstrip b :=
      pyRstrip_cons_not_space (by decide) b
    have hrbne : pyRstrip ('x' :: b) ≠ [] := by
      rw [hrb]
      exact List.cons_ne_nil _ _
    have hstrip : pyStrip (' ' :: (a ++ 'x' :: b)) = pyLstrip a ++ 'x' :: pyRstrip b := by
      rw [pyStrip_cons_space (by decide), pyStrip, pyLstrip_append_cons (by decide),
        pyRstrip_append_not_nil hrbne, hrb]
    have hxa' : 'x' ∉ pyLstrip a := fun hm => hxa (mem_of_mem_pyLstrip hm)
    have hxb' : 'x' ∉ pyRstrip b := fun hm => hxb (mem_of_mem_pyRstrip hm)
    have hw : pyInt? (pyStrip (pyLstrip a)) = pyInt? a := by
      rw [pyInt?, pyStrip_idem, pyStrip_pyLstrip, pyInt?]
    have hh : pyInt? (pyStrip (pyRstrip b)) = pyInt? b := by
      rw [pyInt?, pyStrip_idem, pyStrip_pyRstrip, pyInt?]
    rw [parse_dimensions_eq_of_drop hsplit]
    simp only [hstrip, splitOnChar_append_sep _ _ hxa', splitOnChar_of_not_mem hxb', hw, hh]
    rcases hnone with h | h
    · rw [h]
    · rw [h]
      cases pyInt? a <;> rfl

/-- Witness for Claim C2: the concrete label `"Dimensions: 29 x 7"` parses to
`(29, 7)`. -/
theorem parse_dimensions_spec_witness :
    parse_dimensions (("Dimensions: 29 x 7").toList) = some (29, 7) := by
  have h := parse_dimensions_spec.1 ['2', '9'] ['7'] (by decide) (by decide)
    (by decide) (by decide) (by decide) (by decide)
  have e : ("Dimensions: ").toList ++ ['2', '9'] ++ (" x ").toList ++ ['7']
      = ("Dimensions: 29 x 7").toList := by decide
  rw [e] at h
  simpa using h

/-- Restating `pyStrip` with the two passes exchanged. -/
theorem pyStrip_eq_lstrip_rstrip (l : PyStr) : pyStrip l = pyLstrip (pyRstrip l) :=
  (pyLstrip_pyRstrip_comm l).symm

/-- Claim C6: a label of the form `base ++ " (count)"` with a parenthesis-free,
already-stripped base normalizes to `base`; a label without any parenthesis is
unchanged; and `"Animals (42)"` normalizes to `"Animals"`. -/
theorem category_name_normalization_spec :
    (∀ base cnt : PyStr, '(' ∉ base → pyStrip base = base →
      normalize_category_name (base ++ (" (").toList ++ cnt ++ (")").toList) = base)
  ∧ (∀ label : PyStr, '(' ∉ label → normalize_category_name label = label)
  ∧ normalize_category_name (("Animals (42)").toList) = ("Animals").toList := by
  refine ⟨?_, ?_, ?_⟩
  · intro base cnt hpb hsb
    have hshape : base ++ (" (").toList ++ cnt ++ (")").toList
        = (base ++ [' ']) ++ '(' :: (cnt ++ [')']) := by
      have e : (" (").toList = [' ', '('] := rfl
      have e2 : (")").toList = [')'] := rfl
      rw [e, e2]
      simp
    have hmem : ('(' : Char) ∈ (base ++ [' ']) ++ '(' :: (cnt ++ [')']) :=
      List.mem_append_right _ (List.mem_cons_self _ _)
    have hpbs : ('(' : Char) ∉ base ++ [' '] := by
      intro hm
      rcases List.mem_append.mp hm with h | h
      · exact hpb h
      · rw [List.mem_singleton] at h
        exact absurd h (by decide)
    rw [hshape, normalize_category_name, if_pos hmem,
      splitOnChar_append_sep _ _ hpbs, List.headD_cons,
      pyStrip_eq_lstrip_rstrip, pyRstrip_append_space (by decide),
      ← pyStrip_eq_lstrip_rstrip, hsb]
  · intro label h
    rw [normalize_category_name, if_neg h]
  · decide

/-- Witness for Claim C6: `"Cats (7)"` normalizes to `"Cats"` via the general
statement, and a parenthesis-free label is untouched. -/
theorem category_name_normalization_spec_witness :
    normalize_category_name (("Cats (7)").toList) = ("Cats").toList ∧
    normalize_category_name (("NoParen").toList) = ("NoParen").toList := by
  constructor
  · have h := category_name_normalization_spec.1 (("Cats").toList) (("7").toList)
      (by decide) (by decide)
    have e : ("Cats").toList ++ (" (").toList ++ ("7").toList ++ (")").toList
        = ("Cats (7)").toList := by decide
    rw [e] at h
    exact h
  · exact category_name_normalization_spec.2.1 (("NoParen").toList) (by decide)

/-- Claim C7: `ensureCategory` is idempotent.  The second call with the same
name returns the same id, leaves the store untouched, and the number of
category rows bearing the name after the first call is one when the name was
new and unchanged otherwise (no duplicate row is ever created). -/
theorem ensure_category_idempotent (db : DB) (name : PyStr) :
    (ensureCategory (ensureCategory db name).2 name).1 = (ensureCategory db name).1 ∧
    (ensureCategory (ensureCategory db name).2 name).2 = (ensureCategory db name).2 ∧
    ((ensureCategory db name).2.categories.filter (fun p => p.2 == name)).length
      = max 1 ((db.categories.filter (fun p => p.2 == name)).length) := by
  cases hf : db.categories.find? (fun p => p.2 == name) with
  | some q =>
    have h1 : ensureCategory db name = (q.1, db) := by
      rw [ensureCategory, hf]
    have hpred := List.find?_some hf
    have hp : q ∈ db.categories.filter (fun p => p.2 == name) :=
      List.mem_filter.mpr ⟨List.mem_of_find?_eq_some hf, hpred⟩
    have hlen : 1 ≤ (db.categories.filter (fun p => p.2 == name)).length := by
      cases hq : db.categories.filter (fun p => p.2 == name) with
      | nil => rw [hq] at hp; cases hp
      | cons r rs => simp
    have h2 : ensureCategory (ensureCategory db name).2 name = (q.1, db) := by
      rw [h1]
      exact h1
    rw [h2, h1]
    exact ⟨rfl, rfl, (Nat.max_eq_right hlen).symm⟩
  | none =>
    have hall : ∀ q ∈ db.categories, ¬(q.2 == name) = true := List.find?_eq_none.mp hf
    have h1 : ensureCategory db name =
        (db.nextCategoryId,
         { db with categories := db.categories ++ [(db.nextCategoryId, name)],
                   nextCategoryId := db.nextCategoryId + 1 }) := by
      rw [ensureCategory, hf]
    have hfilnil : db.categories.filter (fun p => p.2 == name) = [] :=
      List.filter_eq_nil_iff.mpr hall
    have hf2 : (db.categories ++ [(db.nextCategoryId, name)]).find?
        (fun p => p.2 == name) = some (db.nextCategoryId, name) := by
      rw [List.find?_append, List.find?_eq_none.mpr hall]
      simp [List.find?_cons]
    rw [h1]
    refine ⟨?_, ?_, ?_⟩
    · rw [ensureCategory]
      simp only [hf2]
    · rw [ensureCategory]
      simp only [hf2]
    · simp [List.filter_append, hfilnil]

/-- Every string contains itself as a substring. -/
theorem pyContains_refl (l : PyStr) : pyContains l l = true := by
  rw [pyContains]
  refine List.any_eq_true.mpr ⟨l, ?_, ?_⟩
  · exact (List.mem_tails l l).mpr (List.suffix_refl l)
  · exact List.isPrefixOf_iff_prefix.mpr (List.prefix_refl l)

/-- Claim C3: category selection.  A case-insensitively unique exact match is
returned; with no exact match and exactly one substring match, that match is
returned; with several substring matches the candidates are listed and no
selection is made; with zero substring matches the caller falls back to the
randomly drawn category. -/
theorem find_category_selection_spec :
    (∀ (cats : List (PyStr × Nat)) (f : PyStr) (p : PyStr × Nat),
      p ∈ cats → pyLower p.1 = pyLower f →
      (∀ q ∈ cats, pyLower q.1 = pyLower f → q = p) →
      (find_category cats f).1 = some p)
  ∧ (∀ (cats : List (PyStr × Nat)) (f : PyStr) (m : PyStr × Nat),
      (∀ q ∈ cats, pyLower q.1 ≠ pyLower f) →
      cats.filter (fun p => pyContains (pyLower p.1) (pyLower f)) = [m] →
      (find_category cats f).1 = some m)
  ∧ (∀ (cats : List (PyStr × Nat)) (f : PyStr),
      (∀ q ∈ cats, pyLower q.1 ≠ pyLower f) →
      1 < (cats.filter (fun p => pyContains (pyLower p.1) (pyLower f))).length →
      (find_category cats f).1 = none ∧
      (find_category cats f).2 =
        (cats.filter (fun p => pyContains (pyLower p.1) (pyLower f))).map Prod.fst)
  ∧ (∀ (cats : List (PyStr × Nat)) (f : PyStr) (r : Nat) (hr : r < cats.length),
      cats.filter (fun p => pyContains (pyLower p.1) (pyLower f)) = [] →
      resolve_category_filter cats f r = cats.get ⟨r, hr⟩) := by
  refine ⟨?_, ?_, ?_, ?_⟩
  · intro cats f p hp hlow huniq
    have hiss : (cats.find? (fun q => pyLower q.1 == pyLower f)).isSome :=
      List.find?_isSome.mpr ⟨p, hp, beq_iff_eq.mpr hlow⟩
    obtain ⟨q, hq⟩ := Option.isSome_iff_exists.mp hiss
    have hqc := List.find?_some hq
    have hqm := List.mem_of_find?_eq_some hq
    have hqp : q = p := huniq q hqm (beq_iff_eq.mp hqc)
    subst hqp
    simp only [find_category, hq]
  · intro cats f m hnoex hone
    have hnone : cats.find? (fun q => pyLower q.1 == pyLower f) = none :=
      List.find?_eq_none.mpr (fun x hx hb => hnoex x hx (beq_iff_eq.mp hb))
    simp only [find_category, hnone, hone]
  · intro cats f hnoex hlen
    have hnone : cats.find? (fun q => pyLower q.1 == pyLower f) = none :=
      List.find?_eq_none.mpr (fun x hx hb => hnoex x hx (beq_iff_eq.mp hb))
    cases hfil : cats.filter (fun p => pyContains (pyLower p.1) (pyLower f)) with
    | nil =>
      rw [hfil] at hlen
      simp at hlen
    | cons a tl =>
      cases tl with
      | nil =>
        rw [hfil] at hlen
        simp at hlen
      | cons b tl2 =>
        refine ⟨?_, ?_⟩ <;> simp only [find_category, hnone, hfil]
  · intro cats f r hr hfil
    have hnoex : ∀ q ∈ cats, pyLower q.1 ≠ pyLower f := by
      intro q hq e
      have hcont : pyContains (pyLower q.1) (pyLower f) = true := by
        rw [e]
        exact pyContains_refl _
      have hqfil : q ∈ cats.filter (fun p => pyContains (pyLower p.1) (pyLower f)) :=
        List.mem_filter.mpr ⟨hq, hcont⟩
      rw [hfil] at hqfil
      cases hqfil
    have hnone : cats.find? (fun q => pyLower q.1 == pyLower f) = none :=
      List.find?_eq_none.mpr (fun x hx hb => hnoex x hx (beq_iff_eq.mp hb))
    simp only [resolve_category_filter, find_category, hnone, hfil]
    rw [List.get_eq_getElem]
    exact List.getD_eq_getElem _ _ hr

/-- Witness for Claim C3: the four selection regimes on the concrete store
`{Cats ↦ 3, Category-free ↦ 7}`. -/
theorem find_category_selection_spec_witness :
    (find_category [(("Cats").toList, 3), (("Category-free").toList, 7)]
      (("cats").toList)).1 = some (("Cats").toList, 3) ∧
    (find_category [(("Cats").toList, 3), (("Category-free").toList, 7)]
      (("free").toList)).1 = some (("Category-free").toList, 7) ∧
    (find_category [(("Cats").toList, 3), (("Category-free").toList, 7)]
      (("cat").toList)).1 = none ∧
    (find_category [(("Cats").toList, 3), (("Category-free").toList, 7)]
      (("cat").toList)).2 = [("Cats").toList, ("Category-free").toList] ∧
    resolve_category_filter [(("Cats").toList, 3), (("Category-free").toList, 7)]
      (("zzz").toList) 1 = (("Category-free").toList, 7) := by
  have h1 := find_category_selection_spec.1
    [(("Cats").toList, 3), (("Category-free").toList, 7)] (("cats").toList)
    ((("Cats").toList, 3)) (by decide) (by decide) (by decide)
  have h2 := find_category_selection_spec.2.1
    [(("Cats").toList, 3), (("Category-free").toList, 7)] (("free").toList)
    ((("Category-free").toList, 7)) (by decide) (by decide)
  have h3 := find_category_selection_spec.2.2.1
    [(("Cats").toList, 3), (("Category-free").toList, 7)] (("cat").toList)
    (by decide) (by decide)
  have h4 := find_category_selection_spec.2.2.2
    [(("Cats").toList, 3), (("Category-free").toList, 7)] (("zzz").toList)
    1 (by decide) (by decide)
  exact ⟨h1, h2, h3.1, h3.2.trans (by decide), h4.trans (by decide)⟩

/-- Placeholder row used as the (never-relevant) default of `List.getD`. -/
def noRow : ArtworkRow := ⟨0, 0, [], none, none⟩

/-- The lookup misses exactly when no stored row carries the probed text. -/
theorem findArtworkIdByText_none_iff {db : DB} {T : PyStr} :
    findArtworkIdByText db T = none ↔ ∀ a ∈ db.artworks, a.artwork ≠ T := by
  rw [findArtworkIdByText, Option.map_eq_none', List.find?_eq_none]
  constructor
  · intro h a ha e
    exact h a ha (beq_iff_eq.mpr e)
  · intro h a ha hb
    exact h a ha (beq_iff_eq.mp hb)

/-- Fields of the updated artwork table, row by row. -/
theorem updateArtworkDims_getD {db : DB} {k : Nat} (hk : k < db.artworks.length)
    (i : Nat) (w h : Int) :
    (updateArtworkDims db i w h).artworks.getD k noRow =
      (if (db.artworks.getD k noRow).id = i
       then { db.artworks.getD k noRow with width := some w, height := some h }
       else db.artworks.getD k noRow) := by
  have hk2 : k < ((db.artworks.map (fun a =>
      if a.id = i then { a with width := some w, height := some h } else a)).length) := by
    simpa using hk
  rw [List.getD_eq_getElem _ _ hk, updateArtworkDims,
    List.getD_eq_getElem _ _ hk2, List.getElem_map]

/-- The update leaves the artwork texts untouched. -/
theorem updateArtworkDims_texts (db : DB) (i : Nat) (w h : Int) :
    (updateArtworkDims db i w h).artworks.map ArtworkRow.artwork
      = db.artworks.map ArtworkRow.artwork := by
  rw [updateArtworkDims, List.map_map]
  refine List.map_congr_left ?_
  intro a _
  by_cases ha : a.id = i <;> simp [ha]

/-- Text membership tests see through a dimension update. -/
theorem any_text_update (db : DB) (i : Nat) (w h : Int) (s : PyStr) :
    (updateArtworkDims db i w h).artworks.any (fun a => a.artwork == s)
      = db.artworks.any (fun a => a.artwork == s) := by
  have key : ∀ l : List ArtworkRow,
      l.any (fun a => a.artwork == s) = (l.map ArtworkRow.artwork).any (fun x => x == s) := by
    intro l
    induction l with
    | nil => rfl
    | cons a l ih => simp [List.any_cons, ih]
  rw [key, key, updateArtworkDims_texts]

/-- A hit in the lookup makes the membership test true. -/
theorem any_text_of_find_some {db : DB} {T : PyStr} {i : Nat}
    (hf : findArtworkIdByText db T = some i) :
    db.artworks.any (fun a => a.artwork == T) = true := by
  rw [findArtworkIdByText] at hf
  obtain ⟨a, ha, _⟩ := Option.map_eq_some'.mp hf
  have hpa := List.find?_some ha
  exact List.any_eq_true.mpr ⟨a, List.mem_of_find?_eq_some ha, hpa⟩

/-- A miss in the lookup makes the membership test false. -/
theorem any_text_of_find_none {db : DB} {T : PyStr}
    (hf : findArtworkIdByText db T = none) :
    db.artworks.any (fun a => a.artwork == T) = false := by
  rw [List.any_eq_false]
  intro a ha hb
  exact findArtworkIdByText_none_iff.mp hf a ha (beq_iff_eq.mp hb)

/-- Distinct row positions carry distinct ids when the id column is duplicate
free. -/
theorem row_id_injective {db : DB} (hids : (db.artworks.map ArtworkRow.id).Nodup)
    {k1 k2 : Nat} (h1 : k1 < db.artworks.length) (h2 : k2 < db.artworks.length)
    (he : (db.artworks.getD k1 noRow).id = (db.artworks.getD k2 noRow).id) : k1 = k2 := by
  have hm1 : k1 < (db.artworks.map ArtworkRow.id).length := by simpa using h1
  have hm2 : k2 < (db.artworks.map ArtworkRow.id).length := by simpa using h2
  have hg : (db.artworks.map ArtworkRow.id).get ⟨k1, hm1⟩
      = (db.artworks.map ArtworkRow.id).get ⟨k2, hm2⟩ := by
    rw [List.get_eq_getElem, List.get_eq_getElem, List.getElem_map, List.getElem_map]
    rw [List.getD_eq_getElem _ _ h1, List.getD_eq_getElem _ _ h2] at he
    exact he
  have := List.nodup_iff_injective_get.mp hids hg
  exact congrArg Fin.val this

/-- Full description of one reconciliation step `applyTriple` on a store with
duplicate-free row ids: categories, counters and id columns are untouched;
rows with a different text are untouched; the first row carrying the scraped
text receives exactly the scraped width and height. -/
theorem applyTriple_core (db : DB) (T : PyStr) (w h : Int) (u n : Nat)
    (hids : (db.artworks.map ArtworkRow.id).Nodup) :
    ((applyTriple (db, u, n) (T, w, h)).1.categories = db.categories) ∧
    ((applyTriple (db, u, n) (T, w, h)).1.artworks.length = db.artworks.length) ∧
    (∀ k, k < db.artworks.length →
      (((applyTriple (db, u, n) (T, w, h)).1.artworks.getD k noRow).id
          = (db.artworks.getD k noRow).id ∧
       ((applyTriple (db, u, n) (T, w, h)).1.artworks.getD k noRow).category_id
          = (db.artworks.getD k noRow).category_id ∧
       ((applyTriple (db, u, n) (T, w, h)).1.artworks.getD k noRow).artwork
          = (db.artworks.getD k noRow).artwork) ∧
      ((db.artworks.getD k noRow).artwork ≠ T →
        (applyTriple (db, u, n) (T, w, h)).1.artworks.getD k noRow
          = db.artworks.getD k noRow) ∧
      ((db.artworks.getD k noRow).artwork = T →
       (∀ j, j < k → (db.artworks.getD j noRow).artwork ≠ T) →
        (applyTriple (db, u, n) (T, w, h)).1.artworks.getD k noRow
          = { db.artworks.getD k noRow with width := some w, height := some h })) := by
  cases hf : findArtworkIdByText db T with
  | none =>
    have happ : applyTriple (db, u, n) (T, w, h) = (db, u, n + 1) := by
      simp [applyTriple, hf]
    rw [happ]
    refine ⟨rfl, rfl, ?_⟩
    intro k hk
    refine ⟨⟨rfl, rfl, rfl⟩, fun _ => rfl, ?_⟩
    intro hT _
    have hmem : db.artworks.getD k noRow ∈ db.artworks := by
      rw [List.getD_eq_getElem _ _ hk]
      exact List.getElem_mem hk
    exact absurd hT (findArtworkIdByText_none_iff.mp hf _ hmem)
  | some i =>
    have happ : applyTriple (db, u, n) (T, w, h) = (updateArtworkDims db i w h, u + 1, n) := by
      simp [applyTriple, hf]
    have hf' := hf
    rw [findArtworkIdByText] at hf'
    obtain ⟨a, ha, hai⟩ := Option.map_eq_some'.mp hf'
    obtain ⟨hpa, k0, hk0, hk0a, hfirst⟩ := List.find?_eq_some_iff_getElem.mp ha
    have hk0text : (db.artworks.getD k0 noRow).artwork = T := by
      rw [List.getD_eq_getElem _ _ hk0, hk0a]
      exact beq_iff_eq.mp hpa
    have hk0id : (db.artworks.getD k0 noRow).id = i := by
      rw [List.getD_eq_getElem _ _ hk0, hk0a, hai]
    rw [happ]
    refine ⟨rfl, by simp [updateArtworkDims], ?_⟩
    intro k hk
    rw [updateArtworkDims_getD hk]
    by_cases hid : (db.artworks.getD k noRow).id = i
    · have hkk0 : k = k0 := row_id_injective hids hk hk0 (hid.trans hk0id.symm)
      subst hkk0
      rw [if_pos hid]
      refine ⟨⟨rfl, rfl, rfl⟩, ?_, fun _ _ => rfl⟩
      intro hne
      exact absurd hk0text hne
    · rw [if_neg hid]
      refine ⟨⟨rfl, rfl, rfl⟩, fun _ => rfl, ?_⟩
      intro hT hfirstk
      have hkk0 : k = k0 := by
        rcases Nat.lt_trichotomy k k0 with hlt | heq | hgt
        · have := hfirst k hlt
          rw [Bool.not_eq_true'] at this
          have hne : ¬(db.artworks[k].artwork == T) = true := by
            rw [this]
            exact Bool.false_ne_true
          rw [List.getD_eq_getElem _ _ hk] at hT
          exact absurd (beq_iff_eq.mpr hT) hne
        · exact heq
        · exact absurd hk0text (hfirstk k0 hgt)
      subst hkk0
      exact absurd hk0id hid

/-- The not-found counter accumulates one unit per scraped triple whose text
matches no stored row, judged against the starting store (updates never change
texts). -/
theorem foldl_applyTriple_notFound :
    ∀ (triples : List (PyStr × Int × Int)) (db : DB) (u n : Nat),
      (triples.foldl applyTriple (db, u, n)).2.2 =
        n + (triples.filter
          (fun t => !(db.artworks.any (fun a => a.artwork == t.1)))).length := by
  intro triples
  induction triples with
  | nil =>
    intro db u n
    simp
  | cons t ts ih =>
    intro db u n
    rw [List.foldl_cons]
    cases hf : findArtworkIdByText db t.1 with
    | none =>
      have happ : applyTriple (db, u, n) t = (db, u, n + 1) := by
        simp [applyTriple, hf]
      rw [happ, ih, List.filter_cons]
      have hany := any_text_of_find_none hf
      simp only [hany, Bool.not_false, if_pos, List.length_cons]
      omega
    | some i =>
      have happ : applyTriple (db, u, n) t
          = (updateArtworkDims db i t.2.1 t.2.2, u + 1, n) := by
        simp [applyTriple, hf]
      rw [happ, ih, List.filter_cons]
      have hfil : ts.filter (fun s =>
            !((updateArtworkDims db i t.2.1 t.2.2).artworks.any (fun a => a.artwork == s.1)))
          = ts.filter (fun s => !(db.artworks.any (fun a => a.artwork == s.1))) := by
        refine List.filter_congr ?_
        intro s _
        rw [any_text_update]
      rw [hfil]
      have hany := any_text_of_find_some hf
      simp [hany]

/-- Counterexample to Claim C1 as stated.  Store two rows with texts `"T"` and
`"U"`, both with null dimensions, and reconcile against a live page exposing
exactly the triple `("T", 10, 4)`.  The stored artwork `"U"` does not appear
on the page, yet the run's not-found counter is 0, not 1: the counter counts
scraped triples missing from the store, not stored artworks missing from the
page. -/
theorem reconcile_not_found_counterexample :
    (runReconcile
      ⟨[(1, ("Animals").toList)],
       [⟨1, 1, ("T").toList, none, none⟩, ⟨2, 1, ("U").toList, none, none⟩], 2, 3⟩
      [((("T").toList : PyStr), (10 : Int), (4 : Int))]).2.2 = 0 ∧
    (("U").toList : PyStr) ∉
      ([((("T").toList : PyStr), (10 : Int), (4 : Int))].map Prod.fst) := by
  constructor
  · decide
  · decide

/-- Claim C1 (amended): reconciling one scraped triple `(T, w, h)` against a
store with duplicate-free row ids leaves every row whose text differs from `T`
untouched (in particular its null dimensions stay null), writes exactly
`(w, h)` into the first row whose text is `T`, and the run's not-found counter
equals the number of scraped triples whose text matches no stored row — not
the number of stored artworks absent from the page. -/
theorem reconcile_round_trip_amended :
    (∀ (db : DB) (T : PyStr) (w h : Int),
      (db.artworks.map ArtworkRow.id).Nodup →
      ((∀ k, k < db.artworks.length → (db.artworks.getD k noRow).artwork ≠ T →
          (runReconcile db [(T, w, h)]).1.artworks.getD k noRow
            = db.artworks.getD k noRow) ∧
       (∀ k, k < db.artworks.length → (db.artworks.getD k noRow).artwork = T →
          (∀ j, j < k → (db.artworks.getD j noRow).artwork ≠ T) →
          (runReconcile db [(T, w, h)]).1.artworks.getD k noRow
            = { db.artworks.getD k noRow with width := some w, height := some h })))
  ∧ (∀ (db : DB) (triples : List (PyStr × Int × Int)),
      (runReconcile db triples).2.2 =
        (triples.filter
          (fun t => !(db.artworks.any (fun a => a.artwork == t.1)))).length) := by
  constructor
  · intro db T w h hids
    have hsingle : runReconcile db [(T, w, h)] = applyTriple (db, 0, 0) (T, w, h) := rfl
    have hcore := applyTriple_core db T w h 0 0 hids
    rw [hsingle]
    exact ⟨fun k hk hne => ((hcore.2.2 k hk).2.1) hne,
           fun k hk hT hfirst => ((hcore.2.2 k hk).2.2) hT hfirst⟩
  · intro db triples
    rw [runReconcile, foldl_applyTriple_notFound]
    simp

/-- Witness for Claim C1 (amended) at a concrete store: the row with text
`"T"` receives `(10, 4)`, the row with text `"U"` keeps its null dimensions,
and a page triple matching nothing bumps the counter to 1. -/
theorem reconcile_round_trip_amended_witness :
    (runReconcile
      ⟨[(1, ("Animals").toList)],
       [⟨1, 1, ("T").toList, none, none⟩, ⟨2, 1, ("U").toList, none, none⟩], 2, 3⟩
      [((("T").toList : PyStr), (10 : Int), (4 : Int))]).1.artworks.getD 0 noRow
      = ⟨1, 1, ("T").toList, some 10, some 4⟩ ∧
    (runReconcile
      ⟨[(1, ("Animals").toList)],
       [⟨1, 1, ("T").toList, none, none⟩, ⟨2, 1, ("U").toList, none, none⟩], 2, 3⟩
      [((("T").toList : PyStr), (10 : Int), (4 : Int))]).1.artworks.getD 1 noRow
      = ⟨2, 1, ("U").toList, none, none⟩ ∧
    (runReconcile
      ⟨[(1, ("Animals").toList)],
       [⟨1, 1, ("T").toList, none, none⟩, ⟨2, 1, ("U").toList, none, none⟩], 2, 3⟩
      [((("Z").toList : PyStr), (1 : Int), (2 : Int))]).2.2 = 1 := by
  have h := reconcile_round_trip_amended
  have hb := (h.1
    ⟨[(1, ("Animals").toList)],
     [⟨1, 1, ("T").toList, none, none⟩, ⟨2, 1, ("U").toList, none, none⟩], 2, 3⟩
    (("T").toList) 10 4 (by decide)).2 0 (by decide) (by decide)
    (fun j hj => absurd hj (by omega))
  have ha := (h.1
    ⟨[(1, ("Animals").toList)],
     [⟨1, 1, ("T").toList, none, none⟩, ⟨2, 1, ("U").toList, none, none⟩], 2, 3⟩
    (("T").toList) 10 4 (by decide)).1 1 (by decide) (by decide)
  have hc := h.2
    ⟨[(1, ("Animals").toList)],
     [⟨1, 1, ("T").toList, none, none⟩, ⟨2, 1, ("U").toList, none, none⟩], 2, 3⟩
    [((("Z").toList : PyStr), (1 : Int), (2 : Int))]
  exact ⟨hb.trans (by decide), ha.trans (by decide), hc.trans (by decide)⟩

/-- Claim C8: one reconciliation step only writes the width and height of the
row whose text equals the scraped text: every row keeps its id, category_id
and text, rows with a different text are bytewise untouched, and the category
table is untouched. -/
theorem update_dimensions_frame :
    ∀ (db : DB) (T : PyStr) (w h : Int),
      (db.artworks.map ArtworkRow.id).Nodup →
      ((applyTriple (db, 0, 0) (T, w, h)).1.categories = db.categories) ∧
      ((applyTriple (db, 0, 0) (T, w, h)).1.artworks.length = db.artworks.length) ∧
      (∀ k, k < db.artworks.length →
        ((applyTriple (db, 0, 0) (T, w, h)).1.artworks.getD k noRow).id
            = (db.artworks.getD k noRow).id ∧
        ((applyTriple (db, 0, 0) (T, w, h)).1.artworks.getD k noRow).category_id
            = (db.artworks.getD k noRow).category_id ∧
        ((applyTriple (db, 0, 0) (T, w, h)).1.artworks.getD k noRow).artwork
            = (db.artworks.getD k noRow).artwork ∧
        ((db.artworks.getD k noRow).artwork ≠ T →
          (applyTriple (db, 0, 0) (T, w, h)).1.artworks.getD k noRow
            = db.artworks.getD k noRow)) := by
  intro db T w h hids
  have hcore := applyTriple_core db T w h 0 0 hids
  refine ⟨hcore.1, hcore.2.1, ?_⟩
  intro k hk
  have hk' := hcore.2.2 k hk
  exact ⟨hk'.1.1, hk'.1.2.1, hk'.1.2.2, hk'.2.1⟩

/-- Witness for Claim C8 on a concrete store: categories survive, the
`"U"` row is untouched, and the updated `"T"` row keeps id, category and
text. -/
theorem update_dimensions_frame_witness :
    ((applyTriple
      (⟨[(5, ("Dogs").toList)],
        [⟨3, 5, ("T").toList, none, none⟩, ⟨4, 5, ("U").toList, some 1, some 1⟩], 6, 5⟩,
       0, 0) ((("T").toList : PyStr), (9 : Int), (2 : Int))).1.categories
      = [(5, ("Dogs").toList)]) ∧
    ((applyTriple
      (⟨[(5, ("Dogs").toList)],
        [⟨3, 5, ("T").toList, none, none⟩, ⟨4, 5, ("U").toList, some 1, some 1⟩], 6, 5⟩,
       0, 0) ((("T").toList : PyStr), (9 : Int), (2 : Int))).1.artworks.getD 1 noRow
      = ⟨4, 5, ("U").toList, some 1, some 1⟩) ∧
    ((applyTriple
      (⟨[(5, ("Dogs").toList)],
        [⟨3, 5, ("T").toList, none, none⟩, ⟨4, 5, ("U").toList, some 1, some 1⟩], 6, 5⟩,
       0, 0) ((("T").toList : PyStr), (9 : Int), (2 : Int))).1.artworks.getD 0 noRow).artwork
      = ("T").toList := by
  have h := update_dimensions_frame
    ⟨[(5, ("Dogs").toList)],
     [⟨3, 5, ("T").toList, none, none⟩, ⟨4, 5, ("U").toList, some 1, some 1⟩], 6, 5⟩
    (("T").toList) 9 2 (by decide)
  refine ⟨h.1.trans (by decide), ?_, ?_⟩
  · exact ((h.2.2 1 (by decide)).2.2.2 (by decide)).trans (by decide)
  · exact ((h.2.2 0 (by decide)).2.2.1).trans (by decide)

/-- `ensureCategory` never touches the artwork table. -/
theorem ensureCategory_artworks (db : DB) (name : PyStr) :
    (ensureCategory db name).2.artworks = db.artworks := by
  cases hf : db.categories.find? (fun p => p.2 == name) <;> simp [ensureCategory, hf]

/-- `ensureCategory` only ever appends to the category table. -/
theorem ensureCategory_categories_subset (db : DB) (name : PyStr) :
    db.categories ⊆ (ensureCategory db name).2.categories := by
  cases hf : db.categories.find? (fun p => p.2 == name) with
  | none =>
    rw [ensureCategory, hf]
    exact List.subset_append_left _ _
  | some q =>
    rw [ensureCategory, hf]
    exact List.Subset.refl _

/-- The id handed out by `ensureCategory` names a category row of the
resulting store. -/
theorem ensureCategory_id_mem (db : DB) (name : PyStr) :
    ∃ c ∈ (ensureCategory db name).2.categories, c.1 = (ensureCategory db name).1 := by
  cases hf : db.categories.find? (fun p => p.2 == name) with
  | none =>
    rw [ensureCategory, hf]
    exact ⟨(db.nextCategoryId, name), List.mem_append_right _ (List.mem_cons_self _ _), rfl⟩
  | some q =>
    rw [ensureCategory, hf]
    exact ⟨q, List.mem_of_find?_eq_some hf, rfl⟩

/-- `ensureCategory` preserves referential integrity. -/
theorem ensureCategory_integrity {db : DB} (name : PyStr) (hdb : RefIntegrity db) :
    RefIntegrity (ensureCategory db name).2 := by
  intro a ha
  rw [ensureCategory_artworks] at ha
  obtain ⟨c, hc, he⟩ := hdb a ha
  exact ⟨c, ensureCategory_categories_subset db name hc, he⟩

/-- Inserting an artwork whose category id names an existing category row
preserves referential integrity; the category table is untouched. -/
theorem insertArtwork_integrity {db : DB} {cid : Nat} (text : PyStr)
    (hdb : RefIntegrity db) (hcid : ∃ c ∈ db.categories, c.1 = cid) :
    RefIntegrity (insertArtwork db cid text) := by
  intro a ha
  rw [insertArtwork] at ha
  rcases List.mem_append.mp ha with h | h
  · exact hdb a h
  · rw [List.mem_singleton] at h
    subst h
    exact hcid

/-- The artwork-insertion fold keeps the category table intact. -/
theorem foldl_insertArtwork_categories :
    ∀ (texts : List PyStr) (d : DB) (cid : Nat),
      (texts.foldl (fun d t => insertArtwork d cid t) d).categories = d.categories := by
  intro texts
  induction texts with
  | nil => intro d cid; rfl
  | cons t ts ih =>
    intro d cid
    rw [List.foldl_cons, ih]
    rfl

/-- The artwork-insertion fold preserves referential integrity. -/
theorem foldl_insertArtwork_integrity :
    ∀ (texts : List PyStr) (d : DB) (cid : Nat),
      RefIntegrity d → (∃ c ∈ d.categories, c.1 = cid) →
      RefIntegrity (texts.foldl (fun d t => insertArtwork d cid t) d) := by
  intro texts
  induction texts with
  | nil => intro d cid hd _; exact hd
  | cons t ts ih =>
    intro d cid hd hcid
    rw [List.foldl_cons]
    exact ih _ _ (insertArtwork_integrity t hd hcid) hcid

/-- Ingesting one category preserves referential integrity and can only grow
the category table. -/
theorem ingestCategory_integrity {db : DB} (name : PyStr) (texts : List PyStr)
    (hdb : RefIntegrity db) :
    RefIntegrity (ingestCategory db name texts) ∧
    db.categories ⊆ (ingestCategory db name texts).categories := by
  rw [ingestCategory]
  constructor
  · exact foldl_insertArtwork_integrity texts (ensureCategory db name).2
      (ensureCategory db name).1 (ensureCategory_integrity name hdb)
      (ensureCategory_id_mem db name)
  · rw [foldl_insertArtwork_categories]
    exact ensureCategory_categories_subset db name

/-- A dimension update preserves referential integrity. -/
theorem updateArtworkDims_integrity {db : DB} (i : Nat) (w h : Int)
    (hdb : RefIntegrity db) : RefIntegrity (updateArtworkDims db i w h) := by
  intro a ha
  rw [updateArtworkDims] at ha
  obtain ⟨b, hb, he⟩ := List.mem_map.mp ha
  obtain ⟨c, hc, hce⟩ := hdb b hb
  refine ⟨c, hc, ?_⟩
  rw [hce]
  subst he
  by_cases hid : b.id = i <;> simp [hid]

/-- The reconciliation fold preserves referential integrity and never edits
the category table. -/
theorem foldl_applyTriple_integrity :
    ∀ (triples : List (PyStr × Int × Int)) (acc : DB × Nat × Nat),
      RefIntegrity acc.1 →
      RefIntegrity (triples.foldl applyTriple acc).1 ∧
      (triples.foldl applyTriple acc).1.categories = acc.1.categories := by
  intro triples
  induction triples with
  | nil => intro acc h; exact ⟨h, rfl⟩
  | cons t ts ih =>
    intro acc h
    rw [List.foldl_cons]
    cases hf : findArtworkIdByText acc.1 t.1 with
    | none =>
      have happ : applyTriple acc t = (acc.1, acc.2.1, acc.2.2 + 1) := by
        simp [applyTriple, hf]
      rw [happ]
      exact ih _ h
    | some i =>
      have happ : applyTriple acc t
          = (updateArtworkDims acc.1 i t.2.1 t.2.2, acc.2.1 + 1, acc.2.2) := by
        simp [applyTriple, hf]
      rw [happ]
      exact ih _ (updateArtworkDims_integrity i t.2.1 t.2.2 h)

/-- One store operation preserves referential integrity and never deletes a
category. -/
theorem applyOp_integrity {db : DB} (op : StoreOp) (hdb : RefIntegrity db) :
    RefIntegrity (applyOp db op) ∧ db.categories ⊆ (applyOp db op).categories := by
  cases op with
  | ingest name texts => exact ingestCategory_integrity name texts hdb
  | reconcile triples =>
    have h := foldl_applyTriple_integrity triples (db, 0, 0) hdb
    refine ⟨h.1, ?_⟩
    rw [applyOp, runReconcile, h.2]
    exact List.Subset.refl _

/-- Claim C9: starting from a store satisfying referential integrity, any run
of ingestion and reconciliation operations preserves it (the retrieval tool
only reads), and every category row survives every operation. -/
theorem referential_integrity_preserved :
    ∀ (ops : List StoreOp) (db : DB), RefIntegrity db →
      RefIntegrity (applyOps db ops) ∧ db.categories ⊆ (applyOps db ops).categories := by
  intro ops
  induction ops with
  | nil => intro db hdb; exact ⟨hdb, List.Subset.refl _⟩
  | cons op ops ih =>
    intro db hdb
    have h1 := applyOp_integrity op hdb
    have h2 := ih (applyOp db op) h1.1
    rw [applyOps, List.foldl_cons]
    exact ⟨h2.1, h1.2.trans h2.2⟩

/-- Witness for Claim C9: a concrete ingest-then-reconcile run on a one-row
store keeps referential integrity and the original category row. -/
theorem referential_integrity_preserved_witness :
    RefIntegrity (applyOps
      ⟨[(1, ("Cats").toList)], [⟨1, 1, ("z").toList, none, none⟩], 2, 2⟩
      [StoreOp.ingest (("Dogs").toList) [("a").toList, ("b").toList],
       StoreOp.reconcile [((("a").toList : PyStr), (3 : Int), (4 : Int))]]) ∧
    (1, ("Cats").toList) ∈ (applyOps
      ⟨[(1, ("Cats").toList)], [⟨1, 1, ("z").toList, none, none⟩], 2, 2⟩
      [StoreOp.ingest (("Dogs").toList) [("a").toList, ("b").toList],
       StoreOp.reconcile [((("a").toList : PyStr), (3 : Int), (4 : Int))]]).categories := by
  have h := referential_integrity_preserved
    [StoreOp.ingest (("Dogs").toList) [("a").toList, ("b").toList],
     StoreOp.reconcile [((("a").toList : PyStr), (3 : Int), (4 : Int))]]
    ⟨[(1, ("Cats").toList)], [⟨1, 1, ("z").toList, none, none⟩], 2, 2⟩
    (by unfold RefIntegrity; decide)
  exact ⟨h.1, h.2 (List.mem_cons_self _ _)⟩

/-- A successful association-list lookup returns one of the stored values. -/
theorem lookup_mem_values {k : PyStr} {v : PyStr} {ps : List (PyStr × PyStr)}
    (h : List.lookup k ps = some v) : v ∈ ps.map Prod.snd := by
  induction ps with
  | nil => cases h
  | cons p ps ih =>
    cases p with
    | mk a b =>
      rw [List.lookup] at h
      split at h
      · obtain rfl := Option.some.inj h
        exact List.mem_cons_self _ _
      · exact List.mem_cons_of_mem _ (ih h)

/-- No ANSI escape in the color table contains a newline. -/
theorem colors_no_newline : ∀ v ∈ COLORS.map Prod.snd, ('\n' : Char) ∉ v := by decide

/-- Splitting undoes intercalation when no piece contains the separator. -/
theorem splitOnChar_intercalate (sep : Char) :
    ∀ (parts : List PyStr), parts ≠ [] → (∀ p ∈ parts, sep ∉ p) →
      splitOnChar sep (List.intercalate [sep] parts) = parts := by
  intro parts
  induction parts with
  | nil => intro h; exact absurd rfl h
  | cons p ps ih =>
    intro _ hall
    cases ps with
    | nil =>
      have key : List.intercalate [sep] [p] = p := by
        simp [List.intercalate, List.intersperse]
      rw [key, splitOnChar_of_not_mem (hall p (List.mem_cons_self _ _))]
    | cons q qs =>
      have key : List.intercalate [sep] (p :: q :: qs)
          = p ++ sep :: List.intercalate [sep] (q :: qs) := by
        simp [List.intercalate, List.intersperse]
      rw [key, splitOnChar_append_sep _ _ (hall p (List.mem_cons_self _ _)),
        ih (List.cons_ne_nil _ _) (fun r hr => hall r (List.mem_cons_of_mem _ hr))]

/-- Indexing an enumerated-and-mapped list. -/
theorem getD_enum_map {β : Type} (l : List PyStr) (f : Nat × PyStr → β) {i : Nat}
    (hi : i < l.length) (d : β) (d2 : PyStr) :
    (l.enum.map f).getD i d = f (i, l.getD i d2) := by
  have h1 : i < (l.enum.map f).length := by
    simp [List.enum_length, hi]
  rw [List.getD_eq_getElem _ _ h1, List.getElem_map, List.getElem_enum,
    List.getD_eq_getElem _ _ hi]

/-- The code's clamped division formula picks exactly the banding index. -/
theorem min_div_eq_band {i j lpc c : Nat} (hlpc : 0 < lpc)
    (hband : (j < c - 1 ∧ j * lpc ≤ i ∧ i < (j + 1) * lpc) ∨
             (j = c - 1 ∧ (c - 1) * lpc ≤ i)) :
    min (i / lpc) (c - 1) = j := by
  rcases hband with ⟨hj1, hlo, hhi⟩ | ⟨hj1, hlo⟩
  · have hdiv : i / lpc = j := Nat.div_eq_of_lt_le hlo hhi
    rw [hdiv]
    exact Nat.min_eq_left (by omega)
  · subst hj1
    exact Nat.min_eq_right ((Nat.le_div_iff_mul_le hlpc).mpr hlo)

/-- Closed form of `colorize_artwork` when all color names are known and the
per-band line count is nonzero. -/
theorem colorize_artwork_eq (artwork : PyStr) (color_names : List PyStr)
    (hne : color_names ≠ [])
    (hv : color_names.filter (fun c => (List.lookup (pyLower c) COLORS).isSome)
      = color_names)
    (hlpc : ¬((splitOnChar '\n' artwork).length / color_names.length = 0)) :
    colorize_artwork artwork color_names = some (List.intercalate ['\n']
      ((splitOnChar '\n' artwork).enum.map (fun p =>
        (List.lookup (pyLower (color_names.getD
          (min (p.1 / ((splitOnChar '\n' artwork).length / color_names.length))
               (color_names.length - 1)) [])) COLORS).getD []
        ++ p.2 ++ (List.lookup (("reset").toList) COLORS).getD []))) := by
  have hcsne : color_names.isEmpty = false := by
    rw [Bool.eq_false_iff]
    simpa [List.isEmpty_iff] using hne
  simp only [colorize_artwork, hv, hcsne, Bool.false_eq_true, if_false, if_neg hlpc]

/-- Claim C5 (amended): when every requested color name is known and there are
no more colors than lines, colorization succeeds and paints contiguous bands:
the first `len(colors) - 1` bands have exactly `lines // colors` lines and the
last band absorbs the remainder; each output line is its input line wrapped in
the band's escape code with a reset at the end.  (As stated, the claim also
covered color lists longer than the artwork, where the code instead raises
`ZeroDivisionError` — see the counterexample.) -/
theorem colorize_banding_amended (artwork : PyStr) (color_names : List PyStr)
    (hne : color_names ≠ [])
    (hvalid : ∀ c ∈ color_names, (List.lookup (pyLower c) COLORS).isSome = true)
    (hcount : color_names.length ≤ (splitOnChar '\n' artwork).length) :
    ∃ out, colorize_artwork artwork color_names = some out ∧
      (splitOnChar '\n' out).length = (splitOnChar '\n' artwork).length ∧
      (∀ i j, i < (splitOnChar '\n' artwork).length → j < color_names.length →
        ((j < color_names.length - 1 ∧
            j * ((splitOnChar '\n' artwork).length / color_names.length) ≤ i ∧
            i < (j + 1) * ((splitOnChar '\n' artwork).length / color_names.length)) ∨
         (j = color_names.length - 1 ∧
            (color_names.length - 1) *
              ((splitOnChar '\n' artwork).length / color_names.length) ≤ i)) →
        (splitOnChar '\n' out).getD i []
          = (List.lookup (pyLower (color_names.getD j [])) COLORS).getD []
              ++ (splitOnChar '\n' artwork).getD i [] ++ ("\x1b[0m").toList) := by
  have hv : color_names.filter (fun c => (List.lookup (pyLower c) COLORS).isSome)
      = color_names := List.filter_eq_self.mpr hvalid
  have hclen : 0 < color_names.length := List.length_pos.mpr hne
  have hlpc : 0 < (splitOnChar '\n' artwork).length / color_names.length :=
    Nat.div_pos hcount hclen
  have hout := colorize_artwork_eq artwork color_names hne hv (by omega)
  refine ⟨_, hout, ?_, ?_⟩
  all_goals
    have hsplit : splitOnChar '\n' (List.intercalate ['\n']
        ((splitOnChar '\n' artwork).enum.map (fun p =>
          (List.lookup (pyLower (color_names.getD
            (min (p.1 / ((splitOnChar '\n' artwork).length / color_names.length))
                 (color_names.length - 1)) [])) COLORS).getD []
          ++ p.2 ++ (List.lookup (("reset").toList) COLORS).getD [])))
        = ((splitOnChar '\n' artwork).enum.map (fun p =>
          (List.lookup (pyLower (color_names.getD
            (min (p.1 / ((splitOnChar '\n' artwork).length / color_names.length))
                 (color_names.length - 1)) [])) COLORS).getD []
          ++ p.2 ++ (List.lookup (("reset").toList) COLORS).getD [])) := by
      refine splitOnChar_intercalate '\n' _ ?_ ?_
      · refine List.ne_nil_of_length_pos ?_
        have h1 : (splitOnChar '\n' artwork) ≠ [] := splitOnChar_ne_nil '\n' artwork
        have h2 : 0 < (splitOnChar '\n' artwork).length := List.length_pos.mpr h1
        simp [List.enum_length, h2]
      · intro e he
        obtain ⟨p, hp, hpe⟩ := List.mem_map.mp he
        subst hpe
        intro hmem
        rcases List.mem_append.mp hmem with hmem1 | hmem2
        · rcases List.mem_append.mp hmem1 with hcode | hline
          · set idx := min (p.1 / ((splitOnChar '\n' artwork).length / color_names.length))
              (color_names.length - 1) with hidx
            have hidxlt : idx < color_names.length := by
              rw [hidx]
              have : color_names.length - 1 < color_names.length := by omega
              omega
            have hcin : color_names.getD idx [] ∈ color_names := by
              rw [List.getD_eq_getElem _ _ hidxlt]
              exact List.getElem_mem hidxlt
            have hsome := hvalid _ hcin
            obtain ⟨v, hvv⟩ := Option.isSome_iff_exists.mp hsome
            rw [hvv] at hcode
            exact colors_no_newline v (lookup_mem_values hvv) hcode
          · have hp2 := List.snd_mem_of_mem_enum hp
            exact sep_not_mem_of_mem_splitOnChar hp2 hline
        · have hres : List.lookup (("reset").toList) COLORS
              = some (("\x1b[0m").toList) := by decide
          rw [hres] at hmem2
          revert hmem2
          decide
  · rw [hsplit]
    simp [List.enum_length]
  · intro i j hi hj hband
    rw [hsplit, getD_enum_map _ _ hi _ []]
    have hmin := min_div_eq_band hlpc hband
    rw [hmin]
    have hres : (List.lookup (("reset").toList) COLORS).getD []
        = ("\x1b[0m").toList := by decide
    rw [hres]

/-- Counterexample to Claim C5 as stated: with more known colors than lines —
two colors for the one-line artwork `"hi"` — `lines_per_color` is `1 // 2 = 0`
and the code raises `ZeroDivisionError` (modelled as `none`) instead of
producing any banded output. -/
theorem colorize_banding_counterexample :
    colorize_artwork (("hi").toList) [("red").toList, ("green").toList] = none := by
  decide

/-- Witness for Claim C5 (amended): coloring nine lines with two colors puts
line 0 in the first (red) band and lines 4 and 8 in the second (green) band,
which absorbs the remainder. -/
theorem colorize_banding_amended_witness :
    (splitOnChar '\n' ((colorize_artwork (("a\nb\nc\nd\ne\nf\ng\nh\ni").toList)
        [("red").toList, ("green").toList]).getD [])).getD 0 []
      = ("\x1b[91ma\x1b[0m").toList ∧
    (splitOnChar '\n' ((colorize_artwork (("a\nb\nc\nd\ne\nf\ng\nh\ni").toList)
        [("red").toList, ("green").toList]).getD [])).getD 4 []
      = ("\x1b[92me\x1b[0m").toList ∧
    (splitOnChar '\n' ((colorize_artwork (("a\nb\nc\nd\ne\nf\ng\nh\ni").toList)
        [("red").toList, ("green").toList]).getD [])).getD 8 []
      = ("\x1b[92mi\x1b[0m").toList := by
  obtain ⟨out, ho, hlen, hband⟩ := colorize_banding_amended
    (("a\nb\nc\nd\ne\nf\ng\nh\ni").toList) [("red").toList, ("green").toList]
    (by decide) (by decide) (by decide)
  have h0 := hband 0 0 (by decide) (by decide) (Or.inl (by decide))
  have h4 := hband 4 1 (by decide) (by decide) (Or.inr (by decide))
  have h8 := hband 8 1 (by decide) (by decide) (Or.inr (by decide))
  rw [ho]
  exact ⟨h0.trans (by decide), h4.trans (by decide), h8.trans (by decide)⟩

/-- Claim C10, evaluated at the failing input: `colorize_artwork` is not
total.  With the two known colors red and green and the one-line artwork
`"x"`, `lines_per_color = 1 // 2 = 0`, so the per-line `i // lines_per_color`
raises `ZeroDivisionError` (modelled as `none`); with at most as many colors
as lines the function does return a string. -/
theorem colorize_zero_division_bug :
    colorize_artwork (("x").toList) [("red").toList, ("green").toList] = none ∧
    colorize_artwork (("x").toList) [("red").toList]
      = some (("\x1b[91mx\x1b[0m").toList) := by
  constructor <;> decide

/-- Claim C4, evaluated: exit codes of the retrieval CLI.  A missing database
file and an empty category table exit 1, listing and success and interruption
exit 0 — but an empty selected category without `--loop` also exits 0, even
though the body raised `SystemExit(1)` (`tryBodyPendingExit = some 1`):
the unconditional `sys.exit(0)` in the `finally` block (line 277) replaces
the pending exit.  The claim (and the code's own `sys.exit(1)` at line 243)
expect status 1 there. -/
theorem cli_exit_code_table :
    cliExitCode false [] false false [] false = 1 ∧
    cliExitCode true [] false false [] false = 1 ∧
    cliExitCode true [(("Cats").toList, 1)] true false [] false = 0 ∧
    cliExitCode true [(("Cats").toList, 1)] false false [("art").toList] false = 0 ∧
    cliExitCode true [(("Cats").toList, 1)] false true [] true = 0 ∧
    tryBodyPendingExit false [] false = some 1 ∧
    cliExitCode true [(("Cats").toList, 1)] false false [] false = 0 := by
  decide
